import Mathlib

/-!
Shallow embedding of the `xml_tree` engine (src/xml_tree/xml_tree.hpp) and
verification of the frozen claims about it.

Modelling conventions:
* `uint32_t` values are `Nat` with explicit `% 2^32` (`toU32`) at the one
  place the source casts a `long` to `uint32_t`.
* The rapidxml document is consumed through an abstract attributed-node
  interface (`XmlNode`): tag name, attribute lookup by name, text content,
  ordered children.  Parsing the document text itself is an external
  collaborator of the engine and is not modelled.
* libc `strtol(s, _, 10)` is modelled by `strtol10` (whitespace skip, sign,
  decimal digits; overflow clamping is not modelled since no claim reaches
  it).  libc `strtod` is modelled by `strtodQ` as an exact decimal rational:
  IEEE-754 rounding of the parsed value is outside this embedding, and no
  claim depends on a particular parsed floating-point value.
* Fallible or undefined behaviour (a null-pointer dereference, control
  falling off the end of a non-void function) is modelled with `Option`:
  `none` means the source program has no defined result there.
* Loops whose variable is a `uint32_t` shifted right by 4 each iteration run
  at most 8 times; they are modelled with an explicit fuel of 8, which is
  exact for every id the program can hold.
-/

namespace xml_tree

/-! ### Error codes (enum Tree_Error_e) and value tags (enum Tree_Val_e) -/

def ERR_None : Nat := 0
def ERR_OverLayer : Nat := 1
def ERR_NullPointer : Nat := 2
def ERR_OverItem : Nat := 3
def ERR_NoXmlNode : Nat := 4
def ERR_NoXmlAttr : Nat := 5
def ERR_IllegalIndex : Nat := 6
def ERR_IllegalId : Nat := 7
def ERR_UsedIndex : Nat := 8
def ERR_UnregisteredIndex : Nat := 9
def ERR_UnregisteredItem : Nat := 10

def VAL_None : Nat := 0
def VAL_Int : Nat := 1
def VAL_String : Nat := 2
def VAL_Double : Nat := 3
def VAL_NUM : Nat := 4

/-! ### Class constants of xmlTree -/

def C_nMaxLayer : Nat := 8
def C_nMaxItem : Nat := 15
def C_nCrorNum : Nat := 4
def C_strItemTag : String := "Content"
def C_strBatchTag : String := "Batch"
def C_strMemberTag : String := "Member"
def C_strIndexTag : String := "index"
def C_strNameTag : String := "name"
def C_strTypeTag : String := "type"
def C_arrValTypeStr : List String := ["", "int", "string", "double"]

/-! ### Model of the libc numeric parsers used by the source -/

/-- The whitespace characters `isspace` accepts. -/
def isSpaceC (c : Char) : Bool :=
  c == ' ' || c == '\t' || c == '\n' || c == '\x0b' || c == '\x0c' || c == '\r'

/-- Accumulate a decimal digit run, stopping at the first non-digit. -/
def digitsToNat : Nat → List Char → Nat
  | acc, [] => acc
  | acc, c :: cs => if c.isDigit then digitsToNat (acc * 10 + (c.toNat - 48)) cs else acc

/-- Model of `strtol(s, _, 10)`: skip whitespace, optional sign, digits. -/
def strtol10 (s : String) : Int :=
  let cs := s.data.dropWhile (fun c => isSpaceC c)
  match cs with
  | '-' :: rest => -(digitsToNat 0 rest : Int)
  | '+' :: rest => (digitsToNat 0 rest : Int)
  | rest => (digitsToNat 0 rest : Int)

/-- The `static_cast<uint32_t>` (or implicit conversion) applied to a long. -/
def toU32 (z : Int) : Nat := (z % (2 ^ 32 : Int)).toNat

/-- Model of `strtod`: an exact decimal rational (no exponent forms; IEEE
rounding is outside the embedding, and no claim depends on the value). -/
def strtodQ (s : String) : Rat :=
  let cs := s.data.dropWhile (fun c => isSpaceC c)
  let sgnRest : Int × List Char :=
    match cs with
    | '-' :: rest => (-1, rest)
    | '+' :: rest => (1, rest)
    | rest => (1, rest)
  let ip := sgnRest.2.takeWhile Char.isDigit
  let rest := sgnRest.2.dropWhile Char.isDigit
  let intPart : Rat := (digitsToNat 0 ip : Nat)
  let fracPart : Rat :=
    match rest with
    | '.' :: fr =>
      let fd := fr.takeWhile Char.isDigit
      ((digitsToNat 0 fd : Nat) : Rat) / ((10 : Rat) ^ fd.length)
    | _ => 0
  (sgnRest.1 : Rat) * (intPart + fracPart)

/-! ### Value model (struct Tree_Val_t)

The source stores a tag `e_type`, a union `u_val` and (for strings) a byte
count `n_memLen`.  We model the tagged union as an inductive: `vString buf`
carries the owned buffer (terminating NUL included, so `buf.length` is
`n_memLen`); `vNone` and `vNum` (the out-of-range tag `VAL_NUM` that
`_parse_strToType` produces for unrecognized type names) carry no payload,
exactly as the union is left untouched for those tags. -/

inductive Tree_Val_t where
  | vNone
  | vInt (val_int : Int)
  | vDouble (val_double : Rat)
  | vString (buf : List Char)
  | vNum
deriving DecidableEq

/-- Model of `Tree_Val_t::operator==`.  Result `none`: for equal tags that
are not `VAL_String`/`VAL_Int`/`VAL_Double` the switch hits `default` and
control falls off the end of the non-void function — undefined behaviour.
The string case is `!memcmp(this->u_val.val_string, val.u_val.val_string,
val.n_memLen)`: a byte comparison over the *argument's* recorded length
(each `vString` list stands for the recorded buffer, NUL byte included, so
its length is that value's `n_memLen`).  When the receiver's buffer is
shorter than the argument's recorded length the `memcmp` reads past the
receiver's allocation — undefined behaviour as well, hence `none`. -/
def eqVal : Tree_Val_t → Tree_Val_t → Option Bool
  | .vString a, .vString b =>
    if a.length < b.length then none else some (decide (a.take b.length = b))
  | .vInt a, .vInt b => some (decide (a = b))
  | .vDouble a, .vDouble b => some (decide (a = b))
  | .vNone, .vNone => none
  | .vNum, .vNum => none
  | _, _ => some false

/-- The tag (`e_type`) of a modelled value. -/
def valTag : Tree_Val_t → Nat
  | .vNone => VAL_None
  | .vInt _ => VAL_Int
  | .vDouble _ => VAL_Double
  | .vString _ => VAL_String
  | .vNum => VAL_NUM

/-! ### Member and Item (structs Tree_Member_t, Tree_Item_t) -/

structure Tree_Member_t where
  s_val : Tree_Val_t
  set_batchIndex : Finset Nat
deriving DecidableEq

inductive Tree_Item_t where
  | mk (n_id : Nat) (str_name : String) (l_member : List Tree_Member_t)
       (v_childItem : List Tree_Item_t)

def Tree_Item_t.n_id : Tree_Item_t → Nat
  | .mk i _ _ _ => i

def Tree_Item_t.str_name : Tree_Item_t → String
  | .mk _ nm _ _ => nm

def Tree_Item_t.l_member : Tree_Item_t → List Tree_Member_t
  | .mk _ _ ms _ => ms

def Tree_Item_t.v_childItem : Tree_Item_t → List Tree_Item_t
  | .mk _ _ _ cs => cs

/-! ### Identifier codec -/

/-- The id assignment of `_make_itemTree` line 459:
`child_item->n_id = (item_index << C_nCrorNum * n_layer) | item_parent->n_id`. -/
def pack (parent_id layer sibling_index : Nat) : Nat :=
  (sibling_index <<< (C_nCrorNum * layer)) ||| parent_id

/-- The counting loop of `_get_parentId`: shifts `id_child` right by 4 until
it is zero, counting iterations.  Returns the final value of `id_child`
together with `cror`.  A `uint32_t` needs at most 8 iterations, hence fuel 8
is exact for every representable id. -/
def crorLoop : Nat → Nat → Nat → Nat × Nat
  | 0, idc, cror => (idc, cror)
  | fuel + 1, idc, cror =>
    if idc = 0 then (idc, cror) else crorLoop fuel (idc >>> C_nCrorNum) (cror + 1)

/-- Model of `_get_parentId`.  Note the source destroys `id_child` in the
counting loop and then masks the *destroyed* variable:
`return id_child & ((1 << C_nCrorNum*(cror-1)) - 1)` runs with `id_child`
already zero. -/
def get_parentId (id_child : Nat) : Nat :=
  if id_child ≠ 0 then
    let p := crorLoop 8 id_child 0
    p.1 &&& ((1 <<< (C_nCrorNum * (p.2 - 1))) - 1)
  else 0

/-! ### Id-based lookup (_search_item_byId) -/

/-- The while-loop of `_search_item_byId`.  `temp_id` is a `uint32_t` shifted
right by 4 each iteration, so 8 rounds of fuel are exact; the fuel-exhausted
branch coincides with the loop's own `temp_id != 0` exit returning NULL. -/
def searchLoop : Nat → Tree_Item_t → Nat → Nat → Option Tree_Item_t
  | 0, _, _, _ => none
  | fuel + 1, temp_item, temp_id, n_id =>
    if temp_id = 0 then none
    else
      let index := temp_id &&& C_nMaxItem
      if index = 0 ∨ temp_item.v_childItem.length < index then none
      else
        match temp_item.v_childItem[index - 1]? with
        | none => none
        | some child =>
          if child.n_id = n_id then some child
          else searchLoop fuel child (temp_id >>> C_nCrorNum) n_id

def search_item_byId (root : Tree_Item_t) (n_id : Nat) : Option Tree_Item_t :=
  if n_id = 0 then some root else searchLoop 8 root n_id n_id

/-! ### C1: the packing scheme versus _get_parentId -/

theorem crorLoop_fst_eq_zero (fuel idc cror : Nat) (h : idc < 16 ^ fuel) :
    (crorLoop fuel idc cror).1 = 0 := by
  induction fuel generalizing idc cror with
  | zero => simpa using h
  | succ n ih =>
    rw [crorLoop]
    split
    · assumption
    · apply ih
      have : idc >>> C_nCrorNum = idc / 16 := by
        simp [Nat.shiftRight_eq_div_pow, C_nCrorNum]
      rw [this]
      have h16 : (0:Nat) < 16 := by norm_num
      calc idc / 16 < 16 ^ n := by
            rw [Nat.div_lt_iff_lt_mul h16]
            calc idc < 16 ^ (n+1) := h
              _ = 16 ^ n * 16 := by ring

/-- Helper: on every 32-bit id the decoder returns 0, because the source
masks the loop variable it has already zeroed. -/
theorem get_parentId_eq_zero (id_child : Nat) (h : id_child < 2 ^ 32) :
    get_parentId id_child = 0 := by
  unfold get_parentId
  split
  · have hz : (crorLoop 8 id_child 0).1 = 0 := by
      apply crorLoop_fst_eq_zero
      calc id_child < 2 ^ 32 := h
        _ = 16 ^ 8 := by norm_num
    simp only [hz, Nat.zero_and]
  · rfl

/-- C1: the claim says `_get_parentId (pack parent layer idx) = parent` for
every id `pack` can produce, and 0 exactly on top-level ids.  The code
instead returns 0 for *every* id: at the concrete packed id
`pack 1 1 2 = 0x21` the decoder yields 0, not the parent id 1.  (The mask
`(1 << 4*(cror-1)) - 1` is applied to the loop variable after the counting
loop has already shifted it down to zero.) -/
theorem c1_get_parentId_of_packed_child_is_zero :
    pack 1 1 2 = 33 ∧ get_parentId (pack 1 1 2) = 0 ∧ get_parentId (pack 1 1 2) ≠ 1 := by
  refine ⟨by decide, by decide, by decide⟩

/-! ### Abstract attributed-node interface over the parsed document -/

inductive XmlNode where
  | mk (tag : String) (attrs : List (String × String)) (text : String)
       (children : List XmlNode)

def XmlNode.tag : XmlNode → String
  | .mk t _ _ _ => t

def XmlNode.attrs : XmlNode → List (String × String)
  | .mk _ a _ _ => a

def XmlNode.text : XmlNode → String
  | .mk _ _ tx _ => tx

def XmlNode.children : XmlNode → List XmlNode
  | .mk _ _ _ cs => cs

/-- `first_attribute(key)`: the value of the first attribute named `key`. -/
def XmlNode.first_attribute (n : XmlNode) (key : String) : Option String :=
  (n.attrs.find? (fun a => a.1 == key)).map (fun a => a.2)

/-- The sequence `first_node(t)`, `next_sibling(t)`, ... : the children with
tag `t`, in document order. -/
def XmlNode.nodesOfTag (n : XmlNode) (t : String) : List XmlNode :=
  n.children.filter (fun c => c.tag == t)

/-! ### Paths into the item tree

The source works with pointers into the tree; we address the pointed-to item
by the list of child positions from the root, so that in-place mutation
becomes functional update at a path. -/

def modifyIdx (f : α → α) : Nat → List α → List α
  | _, [] => []
  | 0, a :: as => f a :: as
  | n + 1, a :: as => a :: modifyIdx f n as

def itemAtPath : Tree_Item_t → List Nat → Option Tree_Item_t
  | it, [] => some it
  | it, i :: p =>
    match it.v_childItem[i]? with
    | none => none
    | some c => itemAtPath c p

def updateAtPath (f : Tree_Item_t → Tree_Item_t) : List Nat → Tree_Item_t → Tree_Item_t
  | [], it => f it
  | i :: p, .mk id nm ms cs => .mk id nm ms (modifyIdx (updateAtPath f p) i cs)

/-! ### Name-based lookup (_search_item_byName)

The source first recurses into each child's subtree, then lets the child
itself override the recursive result if its own name matches, and takes the
first child (in order) that produced anything.  Net effect, modelled here:
for each child in order, the child itself if its name matches, else its
subtree's result under the same rule.  We return the found item together
with its position path. -/

mutual
def search_item_byName : Tree_Item_t → String → Option (List Nat × Tree_Item_t)
  | .mk _ _ _ cs, nm => searchNameChildren nm 0 cs
def searchNameChildren : String → Nat → List Tree_Item_t → Option (List Nat × Tree_Item_t)
  | _, _, [] => none
  | nm, i, c :: cs =>
    let r := if c.str_name = nm then some ([i], c)
             else (search_item_byName c nm).map (fun q => (i :: q.1, q.2))
    match r with
    | some q => some q
    | none => searchNameChildren nm (i + 1) cs
end

/-! ### Per-item value lookup (_get_memberVal) -/

/-- Returns the value of the first Member whose batch-index set contains
`n_batchIndex` (the source returns `ERR_None` and copies the value out;
`none` here is its `ERR_UnregisteredIndex`). -/
def get_memberVal (item : Tree_Item_t) (n_batchIndex : Nat) : Option Tree_Val_t :=
  (item.l_member.find? (fun m => decide (n_batchIndex ∈ m.set_batchIndex))).map
    (fun m => m.s_val)

/-! ### Value parsing (_parse_strToType, _set_memberVal) -/

/-- Model of `_parse_strToType`: index of the first match in
`C_arrValTypeStr`, or `VAL_NUM` (= 4, outside the enum's named values) when
nothing matches. -/
def parse_strToType (str_type : String) : Nat :=
  (C_arrValTypeStr.findIdx? (fun t => t == str_type)).getD VAL_NUM

/-- Model of `_set_memberVal` given the already-assigned tag: strings are
copied byte-for-byte with the terminating NUL (`n_memLen = length + 1`);
for `VAL_None`/`VAL_NUM` the switch hits `default` and the union keeps no
payload. -/
def set_memberVal (str_val : String) (e_type : Nat) : Tree_Val_t :=
  if e_type = VAL_String then .vString (str_val.data ++ [Char.ofNat 0])
  else if e_type = VAL_Int then .vInt (strtol10 str_val)
  else if e_type = VAL_Double then .vDouble (strtodQ str_val)
  else if e_type = VAL_None then .vNone
  else .vNum

/-! ### Batch ingestion (_push_memberVector, _get_batchIndex,
add_batch_fromXmlFile) -/

/-- The `std::find_if` over an item's member list with predicate
`member->s_val == temp_val`.  Outer `none`: one of the comparisons invoked
the undefined fall-through of `operator==`.  Inner value: the position of
the first member whose value compares equal, if any. -/
def find_if_val (v : Tree_Val_t) : List Tree_Member_t → Option (Option Nat)
  | [] => some none
  | m :: rest =>
    match eqVal m.s_val v with
    | none => none
    | some true => some (some 0)
    | some false =>
      match find_if_val v rest with
      | none => none
      | some none => some none
      | some (some i) => some (some (i + 1))

/-- The dedup-or-append block of `_push_memberVector` (lines 609-624) on a
member list: reuse the first member whose value compares equal, adding the
batch index to its set, else append a fresh member whose set holds only
this batch index. -/
def push_valToMembers (v : Tree_Val_t) (index_batch : Nat)
    (ms : List Tree_Member_t) : Option (List Tree_Member_t) :=
  match find_if_val v ms with
  | none => none
  | some none => some (ms ++ [⟨v, {index_batch}⟩])
  | some (some idx) =>
    some (modifyIdx (fun m => ⟨m.s_val, insert index_batch m.set_batchIndex⟩) idx ms)

/-- The same block lifted to the owning item (its id, name and children are
untouched). -/
def push_valToItem (v : Tree_Val_t) (index_batch : Nat) :
    Tree_Item_t → Option Tree_Item_t
  | .mk i nm ms cs =>
    (push_valToMembers v index_batch ms).map (fun ms2 => .mk i nm ms2 cs)

/-- Model of `_push_memberVector` over the member-node sibling list (the
source walks `node_member->next_sibling()`).  Returns the error code and the
root with all mutations of the successfully processed prefix (mutation is
not rolled back on failure).  `none` propagates undefined behaviour from a
value comparison. -/
def push_memberVector (root : Tree_Item_t) (index_batch : Nat) :
    List XmlNode → Option (Nat × Tree_Item_t)
  | [] => some (ERR_None, root)
  | node :: rest =>
    if index_batch = 0 then some (ERR_IllegalIndex, root)
    else
      match node.first_attribute C_strNameTag with
      | none => some (ERR_NoXmlAttr, root)
      | some nm =>
        match search_item_byName root nm with
        | none => some (ERR_IllegalId, root)
        | some (path, member_item) =>
          match search_item_byId root (get_parentId member_item.n_id) with
          | none => some (ERR_IllegalId, root)
          | some _ =>
            match get_memberVal member_item index_batch with
            | some _ => some (ERR_UsedIndex, root)
            | none =>
              match node.first_attribute C_strTypeTag with
              | none => some (ERR_NoXmlAttr, root)
              | some str_type =>
                let temp_val := set_memberVal node.text (parse_strToType str_type)
                match push_valToItem temp_val index_batch member_item with
                | none => none
                | some item2 =>
                  push_memberVector (updateAtPath (fun _ => item2) path root)
                    index_batch rest

/-- Model of `_get_batchIndex`: the parsed `index` attribute, or 0 when the
attribute is missing (and `strtol` itself yields 0 on an unparsable run). -/
def get_batchIndex (node_batch : XmlNode) : Nat :=
  match node_batch.first_attribute C_strIndexTag with
  | some v => toU32 (strtol10 v)
  | none => 0

/-- Engine state: the owned root item and the known-batch set. -/
structure TreeState where
  s_rootItem : Tree_Item_t
  set_batchIndex : Finset Nat

/-- The batch loop of `add_batch_fromXmlFile`.  Beware the source's
`if(ret = _push_memberVector(...) != ERR_None)`: `!=` binds tighter than
`=`, so `ret` receives the *boolean* `push != 0` (that is, 1 on failure),
the loop breaks, and the batch index is not inserted. -/
def addBatchLoop (root : Tree_Item_t) (s : Finset Nat) :
    List XmlNode → Option (Nat × TreeState)
  | [] => some (ERR_None, ⟨root, s⟩)
  | bn :: rest =>
    let batch_index := get_batchIndex bn
    match push_memberVector root batch_index bn.children with
    | none => none
    | some (pret, root2) =>
      if pret ≠ ERR_None then some (1, ⟨root2, s⟩)
      else addBatchLoop root2 (insert batch_index s) rest

/-- Model of `add_batch_fromXmlFile` from the parsed document's root
element: iterate the `Batch`-tagged children. -/
def add_batch_fromXmlFile (doc_root : XmlNode) (st : TreeState) :
    Option (Nat × TreeState) :=
  addBatchLoop st.s_rootItem st.set_batchIndex (doc_root.nodesOfTag C_strBatchTag)

/-! ### Batch deletion (_delete_membersOfBatch, delete_oneBatch) -/

/-- The member-list loop of `_delete_membersOfBatch`, carrying `is_delete`.
The source declares `is_delete` *outside* the loop and never resets it, so
once one member has been destroyed, `iter = l_member.erase(iter)` also
removes every later member of the same item from the list. -/
def delMemberLoop (n_bathIndex : Nat) : Bool → List Tree_Member_t → List Tree_Member_t
  | _, [] => []
  | is_delete, m :: rest =>
    if n_bathIndex ∈ m.set_batchIndex then
      if m.set_batchIndex.erase n_bathIndex = ∅ then
        delMemberLoop n_bathIndex true rest
      else if is_delete then delMemberLoop n_bathIndex is_delete rest
      else ⟨m.s_val, m.set_batchIndex.erase n_bathIndex⟩ :: delMemberLoop n_bathIndex is_delete rest
    else if is_delete then delMemberLoop n_bathIndex is_delete rest
    else m :: delMemberLoop n_bathIndex is_delete rest

mutual
def delete_membersOfBatch (n_bathIndex : Nat) : Tree_Item_t → Tree_Item_t
  | .mk i nm ms cs =>
    .mk i nm (delMemberLoop n_bathIndex false ms) (deleteChildList n_bathIndex cs)
def deleteChildList (n_bathIndex : Nat) : List Tree_Item_t → List Tree_Item_t
  | [] => []
  | c :: cs => delete_membersOfBatch n_bathIndex c :: deleteChildList n_bathIndex cs
end

/-- Model of `delete_oneBatch`: looks the index up in the known-batch set
first; on a hit, walks the tree and erases the index from the set (the
source returns the literal 0 on success). -/
def delete_oneBatch (st : TreeState) (n_batchIndex : Nat) : Nat × TreeState :=
  if n_batchIndex ∈ st.set_batchIndex then
    (0, ⟨delete_membersOfBatch n_batchIndex st.s_rootItem,
         st.set_batchIndex.erase n_batchIndex⟩)
  else (ERR_UnregisteredIndex, st)

/-! ### Schema construction (_make_itemTree, build_tree_fromXmlFile)

The loop state of `_make_itemTree`: position counter, count of legally
accepted children, the per-level set of used sibling indices, the running
bitwise-OR of subtree error codes, the current value of `ret`, and the items
appended to the parent so far. -/

structure MkSt where
  cnt_item : Nat
  cnt_legalItem : Nat
  index_set : List Nat
  last_err : Nat
  ret : Nat
  acc : List Tree_Item_t

/-- The code after the child loop: `if cnt_item != 0 && cnt_item ==
cnt_legalItem then ret = last_err else ret = ret`. -/
def mkFinalize (st : MkSt) : Nat × List Tree_Item_t :=
  (if st.cnt_item ≠ 0 ∧ st.cnt_item = st.cnt_legalItem then st.last_err else st.ret,
   st.acc)

/-- The child loop of `_make_itemTree` over the `Content`-tagged children.
`f kid id` recurses into `kid` with the freshly packed id as parent id.
Result `none`: the source dereferenced the missing `name` attribute
(`child_node->first_attribute(C_strNameTag.c_str())->value()` with a null
pointer) — undefined behaviour. -/
def makeLoop (f : XmlNode → Nat → Option (Nat × List Tree_Item_t))
    (parent_id n_layer : Nat) : List XmlNode → MkSt → Option (Nat × List Tree_Item_t)
  | [], st => some (mkFinalize st)
  | kid :: kids, st =>
    if C_nMaxItem < st.cnt_item then some (mkFinalize { st with ret := ERR_OverItem })
    else
      match kid.first_attribute C_strIndexTag with
      | none =>
        makeLoop f parent_id n_layer kids
          { st with cnt_item := st.cnt_item + 1, ret := ERR_NoXmlAttr }
      | some sidx =>
        let item_index := toU32 (strtol10 sidx)
        if item_index ≠ 0 ∧ item_index ≤ C_nMaxItem ∧ item_index ∉ st.index_set then
          match kid.first_attribute C_strNameTag with
          | none => none
          | some nm =>
            let cid := pack parent_id n_layer item_index
            match f kid cid with
            | none => none
            | some (cerr, gkids) =>
              makeLoop f parent_id n_layer kids
                { cnt_item := st.cnt_item + 1, cnt_legalItem := st.cnt_legalItem + 1,
                  index_set := item_index :: st.index_set,
                  last_err := st.last_err ||| cerr, ret := ERR_IllegalIndex,
                  acc := st.acc ++ [.mk cid nm [] gkids] }
        else
          makeLoop f parent_id n_layer kids
            { st with cnt_item := st.cnt_item + 1, ret := ERR_IllegalIndex }

/-- Model of `_make_itemTree` (the non-null case; the caller passes the
parsed document's root and the owned root item).  Returns the error code
and the children appended to the destination item.  Recursion depth is
bounded by the `n_layer < C_nMaxLayer` guard; fuel `9 - n_layer` suffices,
so the fuel-exhausted branch (mirroring the guard's `ERR_OverLayer`) is
never reached from `build_tree_fromXmlFile`. -/
def make_itemTreeF : Nat → XmlNode → Nat → Nat → Option (Nat × List Tree_Item_t)
  | 0, _, _, _ => some (ERR_OverLayer, [])
  | fuel + 1, node_parent, parent_id, n_layer =>
    if n_layer < C_nMaxLayer then
      if node_parent.children.isEmpty ∧ 0 < n_layer then some (ERR_None, [])
      else
        makeLoop (fun kid cid => make_itemTreeF fuel kid cid (n_layer + 1))
          parent_id n_layer (node_parent.nodesOfTag C_strItemTag)
          ⟨0, 0, [], ERR_None, ERR_NoXmlNode, []⟩
    else some (ERR_OverLayer, [])

/-- Model of `build_tree_fromXmlFile` from the parsed document's root
element: build under the root item (id 0, empty name). -/
def build_tree_fromXmlFile (doc_root : XmlNode) : Option (Nat × Tree_Item_t) :=
  (make_itemTreeF 9 doc_root 0 0).map (fun p => (p.1, .mk 0 "" [] p.2))

/-! ### Verification infrastructure: induction, paths, search soundness -/

/-- Structural induction over the item tree. -/
theorem Tree_Item_t.indOn {P : Tree_Item_t → Prop}
    (h : ∀ i nm ms cs, (∀ c ∈ cs, P c) → P (.mk i nm ms cs)) :
    ∀ t, P t
  | .mk i nm ms cs => h i nm ms cs (fun c hc => Tree_Item_t.indOn h c)
termination_by t => sizeOf t
decreasing_by
  have := List.sizeOf_lt_of_mem hc
  simp only [Tree_Item_t.mk.sizeOf_spec]
  omega

theorem modifyIdx_length (f : α → α) : ∀ (i : Nat) (l : List α),
    (modifyIdx f i l).length = l.length := by
  intro i l
  induction l generalizing i with
  | nil => cases i <;> rfl
  | cons a as ih => cases i <;> simp [modifyIdx, ih]

theorem modifyIdx_getElem (f : α → α) : ∀ (l : List α) (i j : Nat),
    (modifyIdx f i l)[j]? = if i = j then (l[j]?).map f else l[j]? := by
  intro l
  induction l with
  | nil => intro i j; cases i <;> simp [modifyIdx]
  | cons a as ih =>
    intro i j
    cases i with
    | zero => cases j <;> simp [modifyIdx]
    | succ n =>
      cases j with
      | zero => simp [modifyIdx]
      | succ k => simpa [modifyIdx] using ih n k

theorem mem_modifyIdx (f : α → α) : ∀ (i : Nat) (l : List α) (y : α),
    y ∈ modifyIdx f i l → y ∈ l ∨ ∃ x ∈ l, y = f x := by
  intro i l
  induction l generalizing i with
  | nil => intro y hy; cases i <;> simp [modifyIdx] at hy
  | cons a as ih =>
    intro y hy
    cases i with
    | zero =>
      rcases List.mem_cons.mp hy with hy1 | hy1
      · exact Or.inr ⟨a, by simp, hy1⟩
      · exact Or.inl (List.mem_cons_of_mem _ hy1)
    | succ n =>
      rcases List.mem_cons.mp hy with hy1 | hy1
      · exact Or.inl (by simp [hy1])
      · rcases ih n y hy1 with h1 | ⟨x, hx, hfx⟩
        · exact Or.inl (List.mem_cons_of_mem _ h1)
        · exact Or.inr ⟨x, List.mem_cons_of_mem _ hx, hfx⟩

theorem searchNameChildren_sound (nm : String) :
    ∀ (cs : List Tree_Item_t) (i0 : Nat) (p : List Nat) (t : Tree_Item_t),
    (∀ c ∈ cs, ∀ q u, search_item_byName c nm = some (q, u) → itemAtPath c q = some u) →
    searchNameChildren nm i0 cs = some (p, t) →
    ∃ k c q, cs[k]? = some c ∧ p = (i0 + k) :: q ∧ itemAtPath c q = some t := by
  intro cs
  induction cs with
  | nil => intro i0 p t _ h; exact absurd h (by simp [searchNameChildren])
  | cons c cs' ih =>
    intro i0 p t hrec h
    by_cases hnm : c.str_name = nm
    · rw [searchNameChildren, if_pos hnm] at h
      injection h with h2
      injection h2 with hp ht
      subst hp
      subst ht
      exact ⟨0, c, [], by simp, by simp, rfl⟩
    · rw [searchNameChildren, if_neg hnm] at h
      cases hs : search_item_byName c nm with
      | some qu =>
        rw [hs] at h
        simp only [Option.map_some', Option.some_inj] at h
        injection h with hp ht
        subst hp
        subst ht
        refine ⟨0, c, qu.1, by simp, by simp, ?_⟩
        exact hrec c (by simp) qu.1 qu.2 (by rw [hs])
      | none =>
        rw [hs] at h
        simp only [Option.map_none'] at h
        rcases ih (i0 + 1) p t (fun d hd => hrec d (List.mem_cons_of_mem _ hd)) h with
          ⟨k, d, q, hget, hp, hat⟩
        refine ⟨k + 1, d, q, by simpa using hget, ?_, hat⟩
        rw [hp]
        congr 1
        omega

theorem search_item_byName_sound (t : Tree_Item_t) :
    ∀ (nm : String) (p : List Nat) (u : Tree_Item_t),
    search_item_byName t nm = some (p, u) → itemAtPath t p = some u := by
  induction t using Tree_Item_t.indOn with
  | _ i nm0 ms cs ih =>
    intro nm p u h
    rw [search_item_byName] at h
    rcases searchNameChildren_sound nm cs 0 p u
        (fun c hc => ih c hc nm) h with ⟨k, c, q, hget, hp, hat⟩
    subst hp
    simp only [itemAtPath, Tree_Item_t.v_childItem, Nat.zero_add]
    rw [hget]
    exact hat

/-! ### Disjointness of member index sets (for C7) -/

/-- Pairwise disjointness of the batch-index sets of a member list. -/
def MembersDisjoint (ms : List Tree_Member_t) : Prop :=
  List.Pairwise (fun m1 m2 => Disjoint m1.set_batchIndex m2.set_batchIndex) ms

/-- Every item of the tree has pairwise disjoint member index sets. -/
inductive TreeDisjoint : Tree_Item_t → Prop where
  | mk : ∀ i nm ms cs, MembersDisjoint ms → (∀ c ∈ cs, TreeDisjoint c) →
      TreeDisjoint (.mk i nm ms cs)

theorem TreeDisjoint.members : ∀ {it}, TreeDisjoint it → MembersDisjoint it.l_member
  | _, .mk _ _ _ _ hm _ => hm

theorem TreeDisjoint.child : ∀ {it}, TreeDisjoint it → ∀ c ∈ it.v_childItem, TreeDisjoint c
  | _, .mk _ _ _ _ _ hc => hc

theorem get_memberVal_eq_none (it : Tree_Item_t) (b : Nat) :
    get_memberVal it b = none ↔ ∀ m ∈ it.l_member, b ∉ m.set_batchIndex := by
  simp [get_memberVal, List.find?_eq_none]

theorem membersDisjoint_modifyIdx_insert (b : Nat) :
    ∀ (idx : Nat) (ms : List Tree_Member_t),
    MembersDisjoint ms → (∀ m ∈ ms, b ∉ m.set_batchIndex) →
    MembersDisjoint
      (modifyIdx (fun m => ⟨m.s_val, insert b m.set_batchIndex⟩) idx ms) := by
  intro idx ms
  induction ms generalizing idx with
  | nil =>
    intro _ _
    cases idx <;> exact List.Pairwise.nil
  | cons m rest ih =>
    intro hd hb
    rw [MembersDisjoint, List.pairwise_cons] at hd
    cases idx with
    | zero =>
      simp only [modifyIdx]
      rw [MembersDisjoint, List.pairwise_cons]
      refine ⟨?_, hd.2⟩
      intro m2 hm2
      rw [Finset.disjoint_insert_left]
      exact ⟨hb m2 (List.mem_cons_of_mem _ hm2), hd.1 m2 hm2⟩
    | succ n =>
      simp only [modifyIdx]
      rw [MembersDisjoint, List.pairwise_cons]
      constructor
      · intro m2 hm2
        rcases mem_modifyIdx _ n rest m2 hm2 with h1 | ⟨x, hx, hfx⟩
        · exact hd.1 m2 h1
        · subst hfx
          rw [Finset.disjoint_insert_right]
          exact ⟨hb m (by simp), hd.1 x hx⟩
      · exact ih n hd.2 (fun m2 hm2 => hb m2 (List.mem_cons_of_mem _ hm2))

theorem push_valToMembers_disjoint (v : Tree_Val_t) (b : Nat)
    (ms ms2 : List Tree_Member_t)
    (hd : MembersDisjoint ms) (hb : ∀ m ∈ ms, b ∉ m.set_batchIndex)
    (h : push_valToMembers v b ms = some ms2) : MembersDisjoint ms2 := by
  unfold push_valToMembers at h
  cases hf : find_if_val v ms with
  | none => rw [hf] at h; exact absurd h (by simp)
  | some o =>
    rw [hf] at h
    cases o with
    | none =>
      simp only [Option.some_inj] at h
      subst h
      rw [MembersDisjoint, List.pairwise_append]
      refine ⟨hd, by simp, ?_⟩
      intro m1 hm1 m2 hm2
      simp only [List.mem_singleton] at hm2
      subst hm2
      rw [Finset.disjoint_singleton_right]
      exact hb m1 hm1
    | some idx =>
      simp only [Option.some_inj] at h
      subst h
      exact membersDisjoint_modifyIdx_insert b idx ms hd hb

theorem push_valToItem_disjoint (v : Tree_Val_t) (b : Nat) (it it2 : Tree_Item_t)
    (hd : TreeDisjoint it) (hb : get_memberVal it b = none)
    (h : push_valToItem v b it = some it2) : TreeDisjoint it2 := by
  cases it with
  | mk i nm ms cs =>
    simp only [push_valToItem] at h
    cases hp : push_valToMembers v b ms with
    | none => rw [hp] at h; exact absurd h (by simp)
    | some ms2 =>
      rw [hp] at h
      simp only [Option.map_some', Option.some_inj] at h
      subst h
      cases hd with
      | mk _ _ _ _ hm hc =>
        refine TreeDisjoint.mk _ _ _ _ ?_ hc
        refine push_valToMembers_disjoint v b ms ms2 hm ?_ hp
        simpa [Tree_Item_t.l_member] using (get_memberVal_eq_none (.mk i nm ms cs) b).mp hb

theorem itemAtPath_treeDisjoint : ∀ (p : List Nat) (root it : Tree_Item_t),
    TreeDisjoint root → itemAtPath root p = some it → TreeDisjoint it := by
  intro p
  induction p with
  | nil =>
    intro root it hd h
    simp only [itemAtPath, Option.some_inj] at h
    subst h
    exact hd
  | cons i q ih =>
    intro root it hd h
    cases root with
    | mk a nm ms cs =>
      simp only [itemAtPath, Tree_Item_t.v_childItem] at h
      cases hc : cs[i]? with
      | none => rw [hc] at h; exact absurd h (by simp)
      | some c =>
        rw [hc] at h
        exact ih c it (hd.child c (List.getElem?_mem hc)) h

theorem treeDisjoint_updateAtPath (f : Tree_Item_t → Tree_Item_t) :
    ∀ (p : List Nat) (root : Tree_Item_t),
    TreeDisjoint root →
    (∀ it, itemAtPath root p = some it → TreeDisjoint (f it)) →
    TreeDisjoint (updateAtPath f p root) := by
  intro p
  induction p with
  | nil =>
    intro root hd hf
    exact hf root rfl
  | cons i q ih =>
    intro root hd hf
    cases root with
    | mk a nm ms cs =>
      cases hd with
      | mk _ _ _ _ hm hc =>
        refine TreeDisjoint.mk _ _ _ _ hm ?_
        intro c' hc'
        rcases List.getElem?_of_mem hc' with ⟨j, hj⟩
        rw [modifyIdx_getElem] at hj
        by_cases hij : i = j
        · subst hij
          cases hx : cs[i]? with
          | none => rw [hx] at hj; exact absurd hj (by simp)
          | some x =>
            rw [hx, if_pos rfl] at hj
            simp only [Option.map_some', Option.some_inj] at hj
            subst hj
            refine ih x (hc x (List.getElem?_mem hx)) ?_
            intro it hit
            apply hf
            simp only [itemAtPath, Tree_Item_t.v_childItem]
            rw [hx]
            exact hit
        · rw [if_neg hij] at hj
          exact hc c' (List.getElem?_mem hj)

theorem push_memberVector_disjoint : ∀ (nodes : List XmlNode) (root : Tree_Item_t)
    (b e : Nat) (root2 : Tree_Item_t),
    TreeDisjoint root → push_memberVector root b nodes = some (e, root2) →
    TreeDisjoint root2 := by
  intro nodes
  induction nodes with
  | nil =>
    intro root b e root2 hd h
    rw [push_memberVector] at h
    injection h with h2
    injection h2 with _ hr
    subst hr
    exact hd
  | cons n rest ih =>
    intro root b e root2 hd h
    rw [push_memberVector] at h
    have hsame : ∀ err : Nat, some (err, root) = some (e, root2) → TreeDisjoint root2 := by
      intro err hh
      injection hh with h2
      injection h2 with _ hr
      subst hr
      exact hd
    by_cases hb0 : b = 0
    · rw [if_pos hb0] at h
      exact hsame _ h
    · rw [if_neg hb0] at h
      cases hname : n.first_attribute C_strNameTag with
      | none => rw [hname] at h; exact hsame _ h
      | some nm =>
        rw [hname] at h
        dsimp only at h
        cases hsearch : search_item_byName root nm with
        | none => rw [hsearch] at h; exact hsame _ h
        | some pit =>
          obtain ⟨path, member_item⟩ := pit
          rw [hsearch] at h
          dsimp only at h
          cases hbyid : search_item_byId root (get_parentId member_item.n_id) with
          | none => rw [hbyid] at h; exact hsame _ h
          | some w =>
            rw [hbyid] at h
            dsimp only at h
            cases hgm : get_memberVal member_item b with
            | some v0 => rw [hgm] at h; exact hsame _ h
            | none =>
              rw [hgm] at h
              dsimp only at h
              cases hty : n.first_attribute C_strTypeTag with
              | none => rw [hty] at h; exact hsame _ h
              | some ty =>
                rw [hty] at h
                dsimp only at h
                cases hpush : push_valToItem (set_memberVal n.text (parse_strToType ty))
                    b member_item with
                | none => rw [hpush] at h; exact absurd h (by simp)
                | some item2 =>
                  rw [hpush] at h
                  dsimp only at h
                  refine ih _ b e root2 ?_ h
                  have hat : itemAtPath root path = some member_item :=
                    search_item_byName_sound root nm path member_item hsearch
                  refine treeDisjoint_updateAtPath _ path root hd ?_
                  intro it hit
                  rw [hat] at hit
                  injection hit with hit
                  subst hit
                  exact push_valToItem_disjoint _ b member_item item2
                    (itemAtPath_treeDisjoint path root member_item hd hat) hgm hpush

theorem addBatchLoop_disjoint : ∀ (bs : List XmlNode) (root : Tree_Item_t)
    (s : Finset Nat) (r : Nat) (st2 : TreeState),
    TreeDisjoint root → addBatchLoop root s bs = some (r, st2) →
    TreeDisjoint st2.s_rootItem := by
  intro bs
  induction bs with
  | nil =>
    intro root s r st2 hd h
    rw [addBatchLoop] at h
    injection h with h2
    injection h2 with _ hr
    subst hr
    exact hd
  | cons bn rest ih =>
    intro root s r st2 hd h
    rw [addBatchLoop] at h
    cases hp : push_memberVector root (get_batchIndex bn) bn.children with
    | none => rw [hp] at h; exact absurd h (by simp)
    | some pr =>
      obtain ⟨pret, root2⟩ := pr
      rw [hp] at h
      dsimp only at h
      have hd2 : TreeDisjoint root2 :=
        push_memberVector_disjoint bn.children root (get_batchIndex bn) pret root2 hd hp
      by_cases hz : pret ≠ ERR_None
      · rw [if_pos hz] at h
        injection h with h2
        injection h2 with _ hr
        subst hr
        exact hd2
      · rw [if_neg hz] at h
        exact ih root2 _ r st2 hd2 h

theorem makeLoop_allDisjoint : ∀ (kids : List XmlNode)
    (f : XmlNode → Nat → Option (Nat × List Tree_Item_t)) (pid L : Nat) (st : MkSt)
    (e : Nat) (items : List Tree_Item_t),
    (∀ kid cid e2 gk, f kid cid = some (e2, gk) → ∀ it ∈ gk, TreeDisjoint it) →
    (∀ it ∈ st.acc, TreeDisjoint it) →
    makeLoop f pid L kids st = some (e, items) →
    ∀ it ∈ items, TreeDisjoint it := by
  intro kids
  induction kids with
  | nil =>
    intro f pid L st e items _ hacc h
    rw [makeLoop] at h
    injection h with h2
    injection h2 with _ hi
    subst hi
    exact hacc
  | cons kid rest ih =>
    intro f pid L st e items hf hacc h
    rw [makeLoop] at h
    by_cases hover : C_nMaxItem < st.cnt_item
    · rw [if_pos hover] at h
      injection h with h2
      injection h2 with _ hi
      subst hi
      exact hacc
    · rw [if_neg hover] at h
      cases hidx : kid.first_attribute C_strIndexTag with
      | none =>
        rw [hidx] at h
        dsimp only at h
        refine ih f pid L _ e items hf ?_ h
        exact hacc
      | some sidx =>
        rw [hidx] at h
        dsimp only at h
        by_cases hleg : toU32 (strtol10 sidx) ≠ 0 ∧ toU32 (strtol10 sidx) ≤ C_nMaxItem ∧
            toU32 (strtol10 sidx) ∉ st.index_set
        · rw [if_pos hleg] at h
          cases hnm : kid.first_attribute C_strNameTag with
          | none => rw [hnm] at h; exact absurd h (by simp)
          | some nm =>
            rw [hnm] at h
            dsimp only at h
            cases hrec : f kid (pack pid L (toU32 (strtol10 sidx))) with
            | none => rw [hrec] at h; exact absurd h (by simp)
            | some egk =>
              obtain ⟨cerr, gkids⟩ := egk
              rw [hrec] at h
              dsimp only at h
              refine ih f pid L _ e items hf ?_ h
              intro it hit
              simp only [List.mem_append, List.mem_singleton] at hit
              rcases hit with hit | hit
              · exact hacc it hit
              · subst hit
                exact TreeDisjoint.mk _ _ _ _ List.Pairwise.nil
                  (hf kid _ cerr gkids hrec)
        · rw [if_neg hleg] at h
          refine ih f pid L _ e items hf ?_ h
          exact hacc

theorem make_itemTreeF_allDisjoint : ∀ (fuel : Nat) (node : XmlNode) (pid L e : Nat)
    (items : List Tree_Item_t),
    make_itemTreeF fuel node pid L = some (e, items) → ∀ it ∈ items, TreeDisjoint it := by
  intro fuel
  induction fuel with
  | zero =>
    intro node pid L e items h
    rw [make_itemTreeF] at h
    injection h with h2
    injection h2 with _ hi
    subst hi
    intro it hit
    exact absurd hit (by simp)
  | succ n ih =>
    intro node pid L e items h
    rw [make_itemTreeF] at h
    by_cases hl : L < C_nMaxLayer
    · rw [if_pos hl] at h
      by_cases hleaf : node.children.isEmpty ∧ 0 < L
      · rw [if_pos hleaf] at h
        injection h with h2
        injection h2 with _ hi
        subst hi
        intro it hit
        exact absurd hit (by simp)
      · rw [if_neg hleaf] at h
        refine makeLoop_allDisjoint _ _ pid L _ e items ?_ (by simp) h
        intro kid cid e2 gk hrec
        exact ih kid cid (L + 1) e2 gk hrec
    · rw [if_neg hl] at h
      injection h with h2
      injection h2 with _ hi
      subst hi
      intro it hit
      exact absurd hit (by simp)

theorem build_tree_disjoint (doc : XmlNode) (e : Nat) (root : Tree_Item_t)
    (h : build_tree_fromXmlFile doc = some (e, root)) : TreeDisjoint root := by
  unfold build_tree_fromXmlFile at h
  cases hm : make_itemTreeF 9 doc 0 0 with
  | none => rw [hm] at h; exact absurd h (by simp)
  | some p =>
    obtain ⟨e2, items⟩ := p
    rw [hm] at h
    simp only [Option.map_some', Option.some_inj] at h
    injection h with h1 h2
    subst h2
    exact TreeDisjoint.mk _ _ _ _ List.Pairwise.nil
      (make_itemTreeF_allDisjoint 9 doc 0 0 e2 items hm)

/-- C7: member batch-index sets of any item are pairwise disjoint after any
successful sequence of ingestions: a freshly built schema tree trivially
satisfies the invariant (no members at all), and every
`add_batch_fromXmlFile` call — whose per-member `ERR_UsedIndex` guard admits
a batch index only into an item none of whose members already holds it —
preserves it. -/
theorem c7_member_index_sets_pairwise_disjoint :
    (∀ doc e root, build_tree_fromXmlFile doc = some (e, root) → TreeDisjoint root)
  ∧ (∀ doc st r st2, TreeDisjoint st.s_rootItem →
      add_batch_fromXmlFile doc st = some (r, st2) → TreeDisjoint st2.s_rootItem) := by
  constructor
  · exact build_tree_disjoint
  · intro doc st r st2 hd h
    exact addBatchLoop_disjoint _ st.s_rootItem st.set_batchIndex r st2 hd h

theorem c7_member_index_sets_pairwise_disjoint_witness :
    TreeDisjoint (Tree_Item_t.mk 0 "" [] [.mk 1 "w7" [] []])
  ∧ TreeDisjoint (Tree_Item_t.mk 0 "" [] [.mk 1 "w7" [⟨.vInt 5, {1}⟩] []]) :=
  ⟨c7_member_index_sets_pairwise_disjoint.1
      (.mk "r" [] "" [.mk "Content" [("index", "1"), ("name", "w7")] "" []]) 0
      (.mk 0 "" [] [.mk 1 "w7" [] []]) rfl,
   c7_member_index_sets_pairwise_disjoint.2
      (.mk "r" [] ""
        [.mk "Batch" [("index", "1")] "" [.mk "Member" [("name", "w7"), ("type", "int")] "5" []]])
      ⟨.mk 0 "" [] [.mk 1 "w7" [] []], ∅⟩ 0
      ⟨.mk 0 "" [] [.mk 1 "w7" [⟨.vInt 5, {1}⟩] []], insert 1 ∅⟩
      (TreeDisjoint.mk _ _ _ _ List.Pairwise.nil
        (fun c hc => by
          rw [List.mem_singleton] at hc
          subst hc
          exact TreeDisjoint.mk _ _ _ _ List.Pairwise.nil
            (fun d hd => absurd hd (List.not_mem_nil d))))
      rfl⟩

/-! ### Round-trip decoding machinery (for C3)

`GoodSubtree ℓ it` captures the positional-id shape `_search_item_byId`
relies on: the item's id occupies the low `ℓ` nibbles, and child number
`i` (0-based) carries id `it.n_id + 16^ℓ·(i+1)` — i.e. its sibling index
equals its position + 1 — recursively.  `ℓ ≤ 8` bounds the depth by the
8 nibbles of a `uint32_t`. -/

inductive GoodSubtree : Nat → Tree_Item_t → Prop where
  | mk : ∀ (ℓ : Nat) (it : Tree_Item_t),
      it.n_id < 16 ^ ℓ → ℓ ≤ 8 → it.v_childItem.length ≤ 15 →
      (∀ (i : Nat) (c : Tree_Item_t),
        it.v_childItem[i]? = some c → c.n_id = it.n_id + 16 ^ ℓ * (i + 1)) →
      (∀ (i : Nat) (c : Tree_Item_t),
        it.v_childItem[i]? = some c → GoodSubtree (ℓ + 1) c) →
      GoodSubtree ℓ it

theorem GoodSubtree.bound : ∀ {ℓ it}, GoodSubtree ℓ it → it.n_id < 16 ^ ℓ
  | _, _, .mk _ _ h _ _ _ _ => h

theorem GoodSubtree.layer : ∀ {ℓ it}, GoodSubtree ℓ it → ℓ ≤ 8
  | _, _, .mk _ _ _ h _ _ _ => h

theorem GoodSubtree.childLen : ∀ {ℓ it}, GoodSubtree ℓ it → it.v_childItem.length ≤ 15
  | _, _, .mk _ _ _ _ h _ _ => h

theorem GoodSubtree.childId : ∀ {ℓ it}, GoodSubtree ℓ it → ∀ (i : Nat) (c : Tree_Item_t),
    it.v_childItem[i]? = some c → c.n_id = it.n_id + 16 ^ ℓ * (i + 1)
  | _, _, .mk _ _ _ _ _ h _ => h

theorem GoodSubtree.childGood : ∀ {ℓ it}, GoodSubtree ℓ it → ∀ (i : Nat) (c : Tree_Item_t),
    it.v_childItem[i]? = some c → GoodSubtree (ℓ + 1) c
  | _, _, .mk _ _ _ _ _ _ h => h

/-- The number a path's 4-bit fields assemble to: the id of the item at
path `p` below an item whose id occupies the nibbles below. -/
def pathVal : List Nat → Nat
  | [] => 0
  | i :: p => (i + 1) + 16 * pathVal p

theorem pathVal_pos : ∀ (p : List Nat), p ≠ [] → 0 < pathVal p
  | [], h => absurd rfl h
  | _ :: _, _ => by simp only [pathVal]; omega

/-- A left shift OR-ed with a value that fits below it is plain addition
(the two operands occupy disjoint bits). -/
theorem or_shiftLeft_eq_add (a b k : Nat) (hb : b < 2 ^ k) :
    (a <<< k) ||| b = 2 ^ k * a + b := by
  apply Nat.eq_of_testBit_eq
  intro j
  rw [Nat.testBit_or, Nat.testBit_shiftLeft]
  rcases Nat.lt_or_ge j k with hj | hj
  · have h1 : decide (j ≥ k) = false := by simp; omega
    rw [h1, Bool.false_and, Bool.false_or, Nat.testBit_to_div_mod,
      Nat.testBit_to_div_mod]
    have e0 : (2 ^ k * a + b) / 2 ^ j % 2 = b / 2 ^ j % 2 := by
      have e1 : 2 ^ k * a = 2 ^ j * (2 ^ (k - j) * a) := by
        rw [← mul_assoc, ← pow_add]
        congr 2
        omega
      have hpos : 0 < 2 ^ j := Nat.pos_pow_of_pos j (by norm_num)
      rw [e1, Nat.add_comm, Nat.add_mul_div_left _ _ hpos]
      have e2 : ∃ m, 2 ^ (k - j) * a = 2 * m := by
        refine ⟨2 ^ (k - j - 1) * a, ?_⟩
        rw [← mul_assoc]
        congr 1
        rw [← pow_succ']
        congr 1
        omega
      rcases e2 with ⟨m, hm⟩
      rw [hm]
      omega
    rw [e0]
  · have h1 : decide (j ≥ k) = true := by simp [hj]
    have hbj : b.testBit j = false :=
      Nat.testBit_lt_two_pow (lt_of_lt_of_le hb (Nat.pow_le_pow_right (by norm_num) hj))
    rw [h1, Bool.true_and, hbj, Bool.or_false, Nat.testBit_to_div_mod,
      Nat.testBit_to_div_mod]
    have e0 : (2 ^ k * a + b) / 2 ^ j = a / 2 ^ (j - k) := by
      have e1 : 2 ^ j = 2 ^ k * 2 ^ (j - k) := by
        rw [← pow_add]
        congr 1
        omega
      have hpos : 0 < 2 ^ k := Nat.pos_pow_of_pos k (by norm_num)
      rw [e1, ← Nat.div_div_eq_div_mul, Nat.add_comm, Nat.add_mul_div_left _ _ hpos,
        Nat.div_eq_of_lt hb, Nat.zero_add]
    rw [e0]

/-- The packed id of `_make_itemTree` is plain positional arithmetic when
the parent id fits below the shift. -/
theorem pack_eq_add (pid L idx : Nat) (h : pid < 16 ^ L) :
    pack pid L idx = pid + 16 ^ L * idx := by
  have h16 : (16 : Nat) ^ L = 2 ^ (C_nCrorNum * L) := by
    rw [C_nCrorNum, show (16 : Nat) = 2 ^ 4 by norm_num, ← pow_mul]
  rw [pack, or_shiftLeft_eq_add _ _ _ (by rw [← h16]; exact h), ← h16, Nat.add_comm]

/-- Walking a path below a well-placed item lands on the item whose id
appends the path's fields above the start item's id. -/
theorem goodSubtree_itemAtPath : ∀ (p : List Nat) (ℓ : Nat) (it t : Tree_Item_t),
    GoodSubtree ℓ it → itemAtPath it p = some t →
    t.n_id = it.n_id + 16 ^ ℓ * pathVal p ∧ GoodSubtree (ℓ + p.length) t := by
  intro p
  induction p with
  | nil =>
    intro ℓ it t hg h
    simp only [itemAtPath, Option.some_inj] at h
    subst h
    simpa [pathVal] using hg
  | cons i q ih =>
    intro ℓ it t hg h
    simp only [itemAtPath] at h
    cases hc : it.v_childItem[i]? with
    | none => rw [hc] at h; exact absurd h (by simp)
    | some c =>
      rw [hc] at h
      have hid := hg.childId i c hc
      have hgc := hg.childGood i c hc
      obtain ⟨hid2, hg2⟩ := ih (ℓ + 1) c t hgc h
      constructor
      · rw [hid2, hid, pathVal]
        ring
      · have e : ℓ + (i :: q).length = (ℓ + 1) + q.length := by
          simp only [List.length_cons]
          omega
        rw [e]
        exact hg2

/-- The decoding loop of `_search_item_byId` follows a well-placed tree's
positional 4-bit fields to the exact target item. -/
theorem searchLoop_reaches : ∀ (p : List Nat) (fuel ℓ : Nat) (it t : Tree_Item_t),
    GoodSubtree ℓ it → itemAtPath it p = some t → p ≠ [] → p.length ≤ fuel →
    searchLoop fuel it (pathVal p) t.n_id = some t := by
  intro p
  induction p with
  | nil => intro fuel ℓ it t _ _ hne _; exact absurd rfl hne
  | cons i q ih =>
    intro fuel ℓ it t hg hat hne hlen
    cases fuel with
    | zero => simp at hlen
    | succ f =>
      simp only [itemAtPath] at hat
      cases hc : it.v_childItem[i]? with
      | none => rw [hc] at hat; exact absurd hat (by simp)
      | some c =>
        rw [hc] at hat
        have hid := hg.childId i c hc
        have hgc := hg.childGood i c hc
        have hlt : i < it.v_childItem.length := by
          rcases List.getElem?_eq_some.mp hc with ⟨hl, _⟩
          exact hl
        have hi15 : i + 1 ≤ 15 := Nat.le_trans hlt hg.childLen
        have hpv : pathVal (i :: q) = (i + 1) + 16 * pathVal q := rfl
        have hnz : pathVal (i :: q) ≠ 0 := by rw [hpv]; omega
        have hidx : pathVal (i :: q) &&& C_nMaxItem = i + 1 := by
          rw [C_nMaxItem, show (15 : Nat) = 2 ^ 4 - 1 by norm_num,
            Nat.and_pow_two_sub_one_eq_mod, hpv, show (2 : Nat) ^ 4 = 16 by norm_num,
            Nat.add_mul_mod_self_left]
          omega
        have hshift : pathVal (i :: q) >>> C_nCrorNum = pathVal q := by
          rw [C_nCrorNum, Nat.shiftRight_eq_div_pow, hpv,
            show (2 : Nat) ^ 4 = 16 by norm_num, Nat.add_mul_div_left _ _ (by norm_num)]
          rw [Nat.div_eq_of_lt (by omega), Nat.zero_add]
        have htid : t.n_id = c.n_id + 16 ^ (ℓ + 1) * pathVal q :=
          (goodSubtree_itemAtPath q (ℓ + 1) c t hgc hat).1
        rw [searchLoop, if_neg hnz]
        simp only [hidx]
        rw [if_neg (by omega)]
        have hget : it.v_childItem[i + 1 - 1]? = some c := by simpa using hc
        rw [hget]
        dsimp only
        by_cases hq : q = []
        · subst hq
          simp only [itemAtPath, Option.some_inj] at hat
          subst hat
          rw [if_pos rfl]
        · have hne2 : c.n_id ≠ t.n_id := by
            have hp := pathVal_pos q hq
            have h16 : 0 < 16 ^ (ℓ + 1) := Nat.pos_pow_of_pos _ (by norm_num)
            rw [htid]
            nlinarith
          rw [if_neg hne2, hshift]
          refine ih f (ℓ + 1) c t hgc hat hq ?_
          simp only [List.length_cons] at hlen
          omega

/-- Decoding from the root: for any non-root item of a well-placed tree,
`_search_item_byId` on its id returns exactly that item. -/
theorem search_item_byId_reaches (root t : Tree_Item_t) (p : List Nat)
    (hg : GoodSubtree 0 root) (hroot : root.n_id = 0)
    (hat : itemAtPath root p = some t) (hne : p ≠ []) :
    search_item_byId root t.n_id = some t := by
  obtain ⟨hA1, hA2⟩ := goodSubtree_itemAtPath p 0 root t hg hat
  have hid : t.n_id = pathVal p := by
    rw [hA1, hroot]
    simp
  have hlen : p.length ≤ 8 := by
    have := hA2.layer
    omega
  have hnz : ¬t.n_id = 0 := by
    rw [hid]
    have := pathVal_pos p hne
    omega
  rw [search_item_byId, if_neg hnz, hid]
  have hfin := searchLoop_reaches p 8 0 root t hg hat hne hlen
  rw [hid] at hfin
  exact hfin

/-! ### Schema construction analysis (for C3) -/

theorem nat_or_eq_zero {a b : Nat} (h : a ||| b = 0) : a = 0 ∧ b = 0 := by
  constructor
  · refine Nat.eq_of_testBit_eq (fun i => ?_)
    have h2 := congrArg (fun x => Nat.testBit x i) h
    simp only [Nat.testBit_or] at h2
    simpa using (Bool.or_eq_false_iff.mp (by simpa using h2)).1
  · refine Nat.eq_of_testBit_eq (fun i => ?_)
    have h2 := congrArg (fun x => Nat.testBit x i) h
    simp only [Nat.testBit_or] at h2
    simpa using (Bool.or_eq_false_iff.mp (by simpa using h2)).2

/-- The parsed sibling-index attribute of an item node. -/
def idxAttrVal (n : XmlNode) : Option Nat :=
  (n.first_attribute C_strIndexTag).map (fun s => toU32 (strtol10 s))

/-- A schema document is positional when every level's `Content` children
carry index attributes equal to their 1-based document position, recursively
(this is the "siblings stored in an order consistent with their index"
requirement of the decode path). -/
inductive PositionalDoc : XmlNode → Prop where
  | mk : ∀ (n : XmlNode),
      (∀ (i : Nat) (kid : XmlNode), (n.nodesOfTag C_strItemTag)[i]? = some kid →
        idxAttrVal kid = some (i + 1)) →
      (∀ kid ∈ n.nodesOfTag C_strItemTag, PositionalDoc kid) →
      PositionalDoc n

theorem PositionalDoc.idx : ∀ {n}, PositionalDoc n → ∀ (i : Nat) (kid : XmlNode),
    (n.nodesOfTag C_strItemTag)[i]? = some kid → idxAttrVal kid = some (i + 1)
  | _, .mk _ h _ => h

theorem PositionalDoc.kid : ∀ {n}, PositionalDoc n →
    ∀ kid ∈ n.nodesOfTag C_strItemTag, PositionalDoc kid
  | _, .mk _ _ h => h

/-- Once the loop of `_make_itemTree` has seen an illegal child
(`cnt_legalItem < cnt_item`), the level cannot report success any more. -/
theorem makeLoop_stuck (f : XmlNode → Nat → Option (Nat × List Tree_Item_t))
    (pid L : Nat) : ∀ (kids : List XmlNode) (st : MkSt) (e : Nat)
    (items : List Tree_Item_t),
    makeLoop f pid L kids st = some (e, items) →
    st.cnt_legalItem < st.cnt_item → st.ret ≠ 0 → e ≠ 0 := by
  intro kids
  induction kids with
  | nil =>
    intro st e items h hlt hret
    rw [makeLoop] at h
    simp only [mkFinalize] at h
    injection h with h2
    injection h2 with he _
    rw [if_neg (by omega)] at he
    rw [← he]
    exact hret
  | cons kid rest ih =>
    intro st e items h hlt hret
    rw [makeLoop] at h
    by_cases hover : C_nMaxItem < st.cnt_item
    · rw [if_pos hover] at h
      simp only [mkFinalize] at h
      injection h with h2
      injection h2 with he _
      rw [if_neg (fun hc => by omega)] at he
      rw [← he, ERR_OverItem]
      omega
    · rw [if_neg hover] at h
      cases hattr : kid.first_attribute C_strIndexTag with
      | none =>
        rw [hattr] at h
        dsimp only at h
        refine ih _ e items h (by dsimp only; omega)
          (by dsimp only; rw [ERR_NoXmlAttr]; omega)
      | some sidx =>
        rw [hattr] at h
        dsimp only at h
        by_cases hleg : toU32 (strtol10 sidx) ≠ 0 ∧ toU32 (strtol10 sidx) ≤ C_nMaxItem ∧
            toU32 (strtol10 sidx) ∉ st.index_set
        · rw [if_pos hleg] at h
          cases hnm : kid.first_attribute C_strNameTag with
          | none => rw [hnm] at h; exact absurd h (by simp)
          | some nm =>
            rw [hnm] at h
            dsimp only at h
            cases hrec : f kid (pack pid L (toU32 (strtol10 sidx))) with
            | none => rw [hrec] at h; exact absurd h (by simp)
            | some egk =>
              obtain ⟨cerr, gkids⟩ := egk
              rw [hrec] at h
              dsimp only at h
              refine ih _ e items h (by dsimp only; omega)
                (by dsimp only; rw [ERR_IllegalIndex]; omega)
        · rw [if_neg hleg] at h
          refine ih _ e items h (by dsimp only; omega)
            (by dsimp only; rw [ERR_IllegalIndex]; omega)

/-- The loop of `_make_itemTree` on a positional suffix: a successful level
produces exactly the positional children, each heading a well-placed
subtree. -/
theorem makeLoop_positional (f : XmlNode → Nat → Option (Nat × List Tree_Item_t))
    (pid L : Nat) (hpid : pid < 16 ^ L) (hL : L ≤ 7) :
    ∀ (kids : List XmlNode) (st : MkSt) (items : List Tree_Item_t),
    makeLoop f pid L kids st = some (0, items) →
    (∀ kid ∈ kids, ∀ (cid e2 : Nat) (gk : List Tree_Item_t),
        f kid cid = some (e2, gk) → e2 = 0 → cid < 16 ^ (L + 1) →
        gk.length ≤ 15 ∧
        (∀ (i : Nat) (c : Tree_Item_t), gk[i]? = some c →
          c.n_id = cid + 16 ^ (L + 1) * (i + 1) ∧ GoodSubtree (L + 2) c)) →
    (∀ (i : Nat) (kid : XmlNode), kids[i]? = some kid →
        idxAttrVal kid = some (st.cnt_item + i + 1)) →
    st.cnt_legalItem = st.cnt_item → st.acc.length = st.cnt_item →
    st.cnt_item ≤ 15 → st.ret ≠ 0 →
    (∀ x ∈ st.index_set, x ≤ st.cnt_item) →
    (st.last_err = 0 → ∀ (i : Nat) (c : Tree_Item_t), st.acc[i]? = some c →
        c.n_id = pid + 16 ^ L * (i + 1) ∧ GoodSubtree (L + 1) c) →
    items.length ≤ 15 ∧
    (∀ (i : Nat) (c : Tree_Item_t), items[i]? = some c →
        c.n_id = pid + 16 ^ L * (i + 1) ∧ GoodSubtree (L + 1) c) := by
  intro kids
  induction kids with
  | nil =>
    intro st items h _ _ hcl hal hc15 hret _ hacc
    rw [makeLoop] at h
    simp only [mkFinalize] at h
    injection h with h2
    injection h2 with he hi
    by_cases hcond : st.cnt_item ≠ 0 ∧ st.cnt_item = st.cnt_legalItem
    · rw [if_pos hcond] at he
      subst hi
      exact ⟨by omega, hacc he⟩
    · rw [if_neg hcond] at he
      exact absurd he hret
  | cons kid rest ih =>
    intro st items h hf hposk hcl hal hc15 hret hiset hacc
    rw [makeLoop] at h
    rw [if_neg (by rw [C_nMaxItem]; omega)] at h
    have hidx0 : idxAttrVal kid = some (st.cnt_item + 1) := by
      have := hposk 0 kid (by simp)
      simpa using this
    cases hattr : kid.first_attribute C_strIndexTag with
    | none =>
      rw [idxAttrVal, hattr] at hidx0
      exact absurd hidx0 (by simp)
    | some sidx =>
      rw [idxAttrVal, hattr] at hidx0
      simp only [Option.map_some', Option.some_inj] at hidx0
      rw [hattr] at h
      dsimp only at h
      rw [hidx0] at h
      by_cases hle14 : st.cnt_item + 1 ≤ 15
      · rw [if_pos ⟨by omega, by rw [C_nMaxItem]; omega,
          fun hmem => by have := hiset _ hmem; omega⟩] at h
        cases hnm : kid.first_attribute C_strNameTag with
        | none => rw [hnm] at h; exact absurd h (by simp)
        | some nm =>
          rw [hnm] at h
          dsimp only at h
          cases hrec : f kid (pack pid L (st.cnt_item + 1)) with
          | none => rw [hrec] at h; exact absurd h (by simp)
          | some egk =>
            obtain ⟨cerr, gkids⟩ := egk
            rw [hrec] at h
            dsimp only at h
            have hcid : pack pid L (st.cnt_item + 1) = pid + 16 ^ L * (st.cnt_item + 1) :=
              pack_eq_add pid L _ hpid
            have hcidlt : pack pid L (st.cnt_item + 1) < 16 ^ (L + 1) := by
              rw [hcid, pow_succ]
              have h16 : 0 < 16 ^ L := Nat.pos_pow_of_pos _ (by norm_num)
              nlinarith
            refine ih _ items h (fun k hk => hf k (List.mem_cons_of_mem _ hk))
              ?_ ?_ ?_ ?_ ?_ ?_ ?_
            · intro i k hk
              have := hposk (i + 1) k (by simpa using hk)
              dsimp only
              rw [this]
              congr 2
              omega
            · dsimp only
              omega
            · dsimp only
              rw [List.length_append, hal]
              simp
            · dsimp only
              omega
            · dsimp only
              rw [ERR_IllegalIndex]
              omega
            · intro x hx
              dsimp only at hx ⊢
              rcases List.mem_cons.mp hx with hx | hx
              · omega
              · have := hiset x hx
                omega
            · dsimp only
              intro hlerr i c hic
              obtain ⟨hl0, hcerr⟩ := nat_or_eq_zero hlerr
              rcases Nat.lt_or_ge i st.acc.length with hi | hi
              · rw [List.getElem?_append, if_pos hi] at hic
                exact hacc hl0 i c hic
              · rw [List.getElem?_append, if_neg (by omega)] at hic
                have hieq : i = st.acc.length := by
                  rcases List.getElem?_eq_some.mp hic with ⟨hb, _⟩
                  simp only [List.length_singleton] at hb
                  omega
                subst hieq
                simp only [Nat.sub_self, List.getElem?_cons_zero, Option.some_inj] at hic
                subst hic
                have hgk := hf kid (by simp) _ cerr gkids hrec hcerr hcidlt
                constructor
                · rw [Tree_Item_t.n_id, hcid, hal]
                · refine GoodSubtree.mk _ _ ?_ (by omega) ?_ ?_ ?_
                  · rw [Tree_Item_t.n_id]
                    exact hcidlt
                  · rw [Tree_Item_t.v_childItem]
                    exact hgk.1
                  · intro j d hd
                    rw [Tree_Item_t.v_childItem] at hd
                    rw [Tree_Item_t.n_id]
                    exact (hgk.2 j d hd).1
                  · intro j d hd
                    rw [Tree_Item_t.v_childItem] at hd
                    exact (hgk.2 j d hd).2
      · rw [if_neg (fun hcond => hle14 (by rw [C_nMaxItem] at hcond; exact hcond.2.1))] at h
        have := makeLoop_stuck f pid L rest _ 0 items h (by dsimp only; omega)
          (by dsimp only; rw [ERR_IllegalIndex]; omega)
        exact absurd rfl this

/-- A successful `_make_itemTree` level on a positional document yields
positional, well-placed children. -/
theorem make_itemTreeF_positional : ∀ (fuel : Nat) (node : XmlNode) (pid L : Nat)
    (items : List Tree_Item_t),
    make_itemTreeF fuel node pid L = some (0, items) →
    PositionalDoc node → pid < 16 ^ L → L + fuel = 9 →
    items.length ≤ 15 ∧
    (∀ (i : Nat) (c : Tree_Item_t), items[i]? = some c →
        c.n_id = pid + 16 ^ L * (i + 1) ∧ GoodSubtree (L + 1) c) := by
  intro fuel
  induction fuel with
  | zero =>
    intro node pid L items h _ _ _
    rw [make_itemTreeF] at h
    injection h with h2
    injection h2 with he _
    rw [ERR_OverLayer] at he
    omega
  | succ n ih =>
    intro node pid L items h hpos hpid hfuel
    rw [make_itemTreeF] at h
    by_cases hl : L < C_nMaxLayer
    · rw [if_pos hl] at h
      by_cases hleaf : node.children.isEmpty ∧ 0 < L
      · rw [if_pos hleaf] at h
        injection h with h2
        injection h2 with _ hi
        subst hi
        exact ⟨by simp, fun i c hic => absurd hic (by simp)⟩
      · rw [if_neg hleaf] at h
        refine makeLoop_positional _ pid L hpid (by rw [C_nMaxLayer] at hl; omega)
          _ _ items h ?_ ?_ rfl rfl (by dsimp only; norm_num)
          (by dsimp only; rw [ERR_NoXmlNode]; omega)
          (fun x hx => absurd hx (List.not_mem_nil x))
          (fun _ i c hic => absurd hic (by simp))
        · intro k hk cid e2 gk hrec he2 hcid
          subst he2
          have := ih k cid (L + 1) gk hrec (hpos.kid k hk) hcid (by omega)
          exact ⟨this.1, this.2⟩
        · intro i k hk
          have h2 := hpos.idx i k hk
          rw [h2]
          congr 2
          dsimp only
          omega
    · rw [if_neg hl] at h
      injection h with h2
      injection h2 with he _
      rw [ERR_OverLayer] at he
      omega

/-- C3 (amended): the round trip holds once the sibling-index attributes are
positional, i.e. equal to each child's 1-based document position at every
level (the order the decode path's `v_childItem[index-1]` lookup assumes).
For every item of a tree successfully built from such a document, decoding
its packed id from the root by repeated 4-bit extraction reaches exactly
that item. -/
theorem c3_roundtrip_for_positional_schema (doc : XmlNode) (root t : Tree_Item_t)
    (p : List Nat) (hpos : PositionalDoc doc)
    (hbuild : build_tree_fromXmlFile doc = some (ERR_None, root))
    (hat : itemAtPath root p = some t) (hne : p ≠ []) :
    search_item_byId root t.n_id = some t := by
  unfold build_tree_fromXmlFile at hbuild
  cases hm : make_itemTreeF 9 doc 0 0 with
  | none => rw [hm] at hbuild; exact absurd hbuild (by simp)
  | some pr =>
    obtain ⟨e2, items⟩ := pr
    rw [hm] at hbuild
    simp only [Option.map_some', Option.some_inj] at hbuild
    injection hbuild with he hr
    rw [ERR_None] at he
    subst he
    subst hr
    have hprops := make_itemTreeF_positional 9 doc 0 0 items hm hpos
      (by norm_num) (by norm_num)
    have hg : GoodSubtree 0 (Tree_Item_t.mk 0 "" [] items) := by
      refine GoodSubtree.mk _ _ (by rw [Tree_Item_t.n_id]; norm_num) (by norm_num)
        ?_ ?_ ?_
      · rw [Tree_Item_t.v_childItem]
        exact hprops.1
      · intro i c hic
        rw [Tree_Item_t.v_childItem] at hic
        rw [Tree_Item_t.n_id]
        exact (hprops.2 i c hic).1
      · intro i c hic
        rw [Tree_Item_t.v_childItem] at hic
        exact (hprops.2 i c hic).2
    exact search_item_byId_reaches _ t p hg rfl hat hne

def c3_kidB : XmlNode := .mk "Content" [("index", "1"), ("name", "wb")] "" []

def c3_kidA : XmlNode := .mk "Content" [("index", "1"), ("name", "wa")] "" [c3_kidB]

def c3_posDoc : XmlNode := .mk "r" [] "" [c3_kidA]

def c3_posRoot : Tree_Item_t := .mk 0 "" [] [.mk 1 "wa" [] [.mk 17 "wb" [] []]]

theorem c3_positionalDoc_concrete : PositionalDoc c3_posDoc := by
  have hB : PositionalDoc c3_kidB := by
    refine PositionalDoc.mk _ ?_ ?_
    · intro i kid hk
      rw [show c3_kidB.nodesOfTag C_strItemTag = [] from rfl] at hk
      exact absurd hk (by simp)
    · intro kid hk
      rw [show c3_kidB.nodesOfTag C_strItemTag = [] from rfl] at hk
      exact absurd hk (by simp)
  have hA : PositionalDoc c3_kidA := by
    refine PositionalDoc.mk _ ?_ ?_
    · intro i kid hk
      rw [show c3_kidA.nodesOfTag C_strItemTag = [c3_kidB] from rfl] at hk
      cases i with
      | zero =>
        simp only [List.getElem?_cons_zero, Option.some_inj] at hk
        subst hk
        rfl
      | succ n => simp at hk
    · intro kid hk
      rw [show c3_kidA.nodesOfTag C_strItemTag = [c3_kidB] from rfl] at hk
      rw [List.mem_singleton] at hk
      subst hk
      exact hB
  refine PositionalDoc.mk _ ?_ ?_
  · intro i kid hk
    rw [show c3_posDoc.nodesOfTag C_strItemTag = [c3_kidA] from rfl] at hk
    cases i with
    | zero =>
      simp only [List.getElem?_cons_zero, Option.some_inj] at hk
      subst hk
      rfl
    | succ n => simp at hk
  · intro kid hk
    rw [show c3_posDoc.nodesOfTag C_strItemTag = [c3_kidA] from rfl] at hk
    rw [List.mem_singleton] at hk
    subst hk
    exact hA

theorem c3_roundtrip_for_positional_schema_witness :
    build_tree_fromXmlFile c3_posDoc = some (ERR_None, c3_posRoot)
  ∧ search_item_byId c3_posRoot 17 = some (.mk 17 "wb" [] []) :=
  ⟨rfl,
   c3_roundtrip_for_positional_schema c3_posDoc c3_posRoot (.mk 17 "wb" [] [])
     [0, 0] c3_positionalDoc_concrete rfl rfl (by simp)⟩

/-! ### Deduplication analysis (for C6) -/

def c2_item : Tree_Item_t := .mk 0 "" [⟨.vInt 1, {1}⟩, ⟨.vInt 2, {2}⟩] []

def c2_state : TreeState := ⟨c2_item, {1, 2}⟩

/-- C2: after `delete_oneBatch 1` on an item holding members
`(1, {1})` and `(2, {2})`, the claim requires the second member (whose set
`{2}` did not contain 1) to survive with its value and indices intact.  The
source never resets `is_delete` inside the member loop, so after destroying
the first member it also unlinks the second from the list: the member list
comes back empty and the batch-2 value is gone. -/
theorem c2_delete_unlinks_surviving_member :
    (⟨.vInt 2, {2}⟩ : Tree_Member_t) ∈ c2_state.s_rootItem.l_member
  ∧ (delete_oneBatch c2_state 1).1 = ERR_None
  ∧ (delete_oneBatch c2_state 1).2.s_rootItem.l_member = []
  ∧ get_memberVal (delete_oneBatch c2_state 1).2.s_rootItem 2 = none := by
  refine ⟨by decide, by decide, by decide, by decide⟩

/-! ### C3 (counterexample part): sibling index not equal to position -/

def c3_doc : XmlNode := .mk "root" [] "" [.mk "Content" [("index", "2"), ("name", "a")] "" []]

def c3_root : Tree_Item_t := .mk 0 "" [] [.mk 2 "a" [] []]

/-- C3 counterexample: a legal schema document (single top-level item with
sibling index 2, unique and in [1,15]) builds successfully, but decoding the
resulting item's id 2 from the root fails: `_search_item_byId` indexes the
child array at `index - 1 = 1`, past the single stored child, so the decode
does not reach the item. -/
theorem c3_nonpositional_index_breaks_decode :
    build_tree_fromXmlFile c3_doc = some (ERR_None, c3_root)
  ∧ itemAtPath c3_root [0] = some (.mk 2 "a" [] [])
  ∧ search_item_byId c3_root 2 = none :=
  ⟨rfl, rfl, rfl⟩

/-! ### C4: error code surfaced for an unknown member name -/

def c4_state : TreeState := ⟨.mk 0 "" [] [.mk 1 "student" [] []], ∅⟩

def c4_member : XmlNode := .mk "Member" [("name", "ghost"), ("type", "int")] "5" []

def c4_doc : XmlNode := .mk "root" [] "" [.mk "Batch" [("index", "3")] "" [c4_member]]

/-- C4: `_push_memberVector` does report `ERR_IllegalId` (7) for a member
naming an item absent from the schema, and the batch index is indeed not
inserted — but `add_batch_fromXmlFile` returns 1, not 7: in
`if(ret = _push_memberVector(...) != ERR_None)` the `!=` binds tighter than
`=`, so `ret` receives the boolean comparison result. -/
theorem c4_unknown_name_returns_boolean_one :
    push_memberVector c4_state.s_rootItem 3 [c4_member]
      = some (ERR_IllegalId, c4_state.s_rootItem)
  ∧ add_batch_fromXmlFile c4_doc c4_state = some (1, c4_state)
  ∧ (1 : Nat) ≠ ERR_IllegalId
  ∧ c4_state.set_batchIndex = ∅ :=
  ⟨rfl, rfl, by decide, rfl⟩

/-! ### C5: item node with index attribute but no name attribute -/

def c5_doc : XmlNode := .mk "root" [] "" [.mk "Content" [("index", "1")] "" []]

/-- C5: the claim says construction returns `ERR_NoXmlAttr` when an item
node has a legal, unused index attribute but no name attribute.  The source
instead dereferences the null result of `first_attribute("name")` (line 460)
without the null check it performs for the index attribute: the call has no
defined result at all (modelled `none`), so in particular it does not return
`ERR_NoXmlAttr`. -/
theorem c5_missing_name_attribute_has_no_result :
    build_tree_fromXmlFile c5_doc = none
  ∧ ∀ t, build_tree_fromXmlFile c5_doc ≠ some (ERR_NoXmlAttr, t) := by
  refine ⟨rfl, ?_⟩
  intro t h
  rw [show build_tree_fromXmlFile c5_doc = none from rfl] at h
  exact Option.noConfusion h

/-! ### C8: delete_oneBatch checks the known-batch set before any mutation -/

/-- C8: `delete_oneBatch b` returns `ERR_UnregisteredIndex` exactly when `b`
is not in the known-batch set; on that failure the whole state is returned
untouched (the membership test precedes every mutation); on success it
returns 0 and erases `b` from the set. -/
theorem c8_delete_oneBatch_atomic (st : TreeState) (b : Nat) :
    ((delete_oneBatch st b).1 = ERR_UnregisteredIndex ↔ b ∉ st.set_batchIndex)
  ∧ (b ∉ st.set_batchIndex → (delete_oneBatch st b).2 = st)
  ∧ (b ∈ st.set_batchIndex →
      (delete_oneBatch st b).1 = ERR_None ∧
      (delete_oneBatch st b).2.set_batchIndex = st.set_batchIndex.erase b) := by
  by_cases hb : b ∈ st.set_batchIndex <;>
    simp [delete_oneBatch, hb, ERR_UnregisteredIndex, ERR_None]

theorem c8_delete_oneBatch_atomic_witness :
    (delete_oneBatch ⟨.mk 0 "" [] [], {2}⟩ 2).1 = ERR_None
  ∧ (delete_oneBatch ⟨.mk 0 "" [] [], {2}⟩ 2).2.set_batchIndex
      = ({2} : Finset Nat).erase 2
  ∧ (delete_oneBatch ⟨.mk 0 "" [] [], {3}⟩ 2).2 = (⟨.mk 0 "" [] [], {3}⟩ : TreeState) :=
  ⟨((c8_delete_oneBatch_atomic ⟨.mk 0 "" [] [], {2}⟩ 2).2.2 (by decide)).1,
   ((c8_delete_oneBatch_atomic ⟨.mk 0 "" [] [], {2}⟩ 2).2.2 (by decide)).2,
   (c8_delete_oneBatch_atomic ⟨.mk 0 "" [] [], {3}⟩ 2).2.1 (by decide)⟩

/-! ### C9: definedness of Tree_Val_t::operator== -/

/-- C9 counterexample: comparing two values that both carry the `VAL_None`
tag does not yield the defined result `true` the claim requires — the
switch's `default` lets control fall off the end of the non-void
`operator==`, so there is no defined result at all. -/
theorem c9_eqVal_none_none_undefined : eqVal .vNone .vNone = none := rfl

/-- C9 (amended): equality is defined whenever the two tags differ (result
false), the shared tag is Int or Double (payload equality), or the shared
tag is String and the receiver's buffer is at least as long as the
argument's recorded length — the `memcmp(this, val, val.n_memLen)` then
returns true exactly when the receiver's first `val.n_memLen` bytes equal
the argument's buffer.  It is undefined (not total) when both tags are
`VAL_None`, when both are the out-of-range `VAL_NUM` (control falls off the
end of the non-void function), and when both are `VAL_String` with the
receiver's buffer shorter than the argument's recorded length (the
`memcmp` reads past the receiver's allocation). -/
theorem c9_eqVal_characterization (v1 v2 : Tree_Val_t) :
    (eqVal v1 v2 = none ↔
      (v1 = .vNone ∧ v2 = .vNone) ∨ (v1 = .vNum ∧ v2 = .vNum) ∨
      (∃ a b, v1 = .vString a ∧ v2 = .vString b ∧ a.length < b.length))
  ∧ (valTag v1 ≠ valTag v2 → eqVal v1 v2 = some false)
  ∧ (eqVal v1 v2 = some true ↔
      (∃ a b, v1 = .vInt a ∧ v2 = .vInt b ∧ a = b) ∨
      (∃ a b, v1 = .vDouble a ∧ v2 = .vDouble b ∧ a = b) ∨
      (∃ a b, v1 = .vString a ∧ v2 = .vString b ∧ a.take b.length = b)) := by
  cases v1 <;> cases v2
  case vString.vString a b =>
    refine ⟨?_, fun h => absurd rfl h, ?_⟩
    · by_cases hl : a.length < b.length <;> simp [eqVal, hl]
    · by_cases hl : a.length < b.length
      · simp [eqVal, hl]
        intro h
        have hlen := congrArg List.length h
        rw [List.length_take] at hlen
        omega
      · simp [eqVal, hl]
  all_goals
    simp [eqVal, valTag, VAL_None, VAL_Int, VAL_String, VAL_Double, VAL_NUM]

theorem c9_eqVal_characterization_witness :
    eqVal (.vInt 3) (.vString ['a']) = some false
  ∧ eqVal (.vString ['h', 'i', Char.ofNat 0])
      (.vString ['h', 'i', 'x', Char.ofNat 0]) = none :=
  ⟨(c9_eqVal_characterization (.vInt 3) (.vString ['a'])).2.1 (by decide),
   (c9_eqVal_characterization (.vString ['h', 'i', Char.ofNat 0])
      (.vString ['h', 'i', 'x', Char.ofNat 0])).1.mpr
     (Or.inr (Or.inr ⟨_, _, rfl, rfl, by decide⟩))⟩

/-! ### C10: a batch node with no member children -/

/-- C10: a `Batch` node with no children is accepted: `_push_memberVector`
receives a null first member and returns `ERR_None` before any of the
index/name/type validation runs, so the caller inserts the parsed batch
index — which is 0 when the `index` attribute is missing (and `strtol`
returns 0 on an unparsable run) — into the known-batch set. -/
theorem c10_empty_batch_accepted (st : TreeState) (attrs : List (String × String))
    (tx : String) :
    add_batch_fromXmlFile (.mk "r" [] "" [.mk C_strBatchTag attrs tx []]) st
      = some (ERR_None,
          ⟨st.s_rootItem,
           insert (get_batchIndex (.mk C_strBatchTag attrs tx [])) st.set_batchIndex⟩)
  ∧ ((XmlNode.mk C_strBatchTag attrs tx []).first_attribute C_strIndexTag = none →
      get_batchIndex (.mk C_strBatchTag attrs tx []) = 0) := by
  constructor
  · simp [add_batch_fromXmlFile, XmlNode.nodesOfTag, XmlNode.children, XmlNode.tag,
      addBatchLoop, push_memberVector, ERR_None]
  · intro h
    simp [get_batchIndex, h]

theorem c10_empty_batch_accepted_witness :
    add_batch_fromXmlFile (.mk "r" [] "" [.mk C_strBatchTag [] "" []])
        ⟨.mk 0 "" [] [], ∅⟩
      = some (ERR_None, ⟨.mk 0 "" [] [], insert (get_batchIndex (.mk C_strBatchTag [] "" [])) ∅⟩)
  ∧ get_batchIndex (.mk C_strBatchTag [] "" []) = 0 :=
  ⟨(c10_empty_batch_accepted ⟨.mk 0 "" [] [], ∅⟩ [] "").1,
   (c10_empty_batch_accepted ⟨.mk 0 "" [] [], ∅⟩ [] "").2 rfl⟩

end xml_tree
